import Mathlib

/-!
Verification of the Strudel snippet library core
(`strudel-snippet-library.js`): the tree-flattening indexer and the
search/ranking engine.

Modelling conventions:
* JS strings are modelled as `List Char` (`Str`); `toLowerCase`,
  `includes`, `startsWith`, `split('/')` and `Array.join('/')` become
  `jsLower`, `jsIncludes`, `jsStartsWith`, `jsSplitSlash`, `jsJoinSlash`.
* A JS object used as a dictionary is modelled as an association list in
  insertion order; property update (`result[k] = v`) is `objInsert`,
  which overwrites in place, keeping the original position of the key.
* Possibly-missing JS fields (`undefined`) are modelled as `Option`.
* Fallible code paths (a `TypeError` from calling `.toLowerCase()` on
  `undefined`) are modelled with `Except String`.
* JS numbers used as counters/scores are modelled as `Int`.
-/

/-- Model of a JS string: its sequence of characters. -/
abbrev Str := List Char

/-- `s.toLowerCase()` (basic-latin case folding, as in `Char.toLower`). -/
def jsLower (s : Str) : Str := s.map Char.toLower

/-- `s.includes(q)`: `q` occurs as a contiguous substring of `s`. -/
def jsIncludes (s q : Str) : Bool :=
  match s with
  | [] => q.isEmpty
  | _ :: rest => q.isPrefixOf s || jsIncludes rest q

/-- `s.startsWith(p)`. -/
def jsStartsWith (s p : Str) : Bool := p.isPrefixOf s

/-- `s.split('/')`: always returns at least one (possibly empty) piece. -/
def jsSplitSlash : Str → List Str
  | [] => [[]]
  | c :: rest =>
    if c = '/' then [] :: jsSplitSlash rest
    else
      match jsSplitSlash rest with
      | [] => [[c]]
      | piece :: pieces => (c :: piece) :: pieces

/-- `arr.join('/')`. -/
def jsJoinSlash : List Str → Str
  | [] => []
  | [s] => s
  | s :: s2 :: rest => s ++ '/' :: jsJoinSlash (s2 :: rest)

/-- `v || dflt` for a possibly-missing string `v` (`undefined` and the
empty string are falsy). -/
def jsOrElse (v : Option Str) (dflt : Str) : Str :=
  match v with
  | some s => if s = [] then dflt else s
  | none => dflt

/-- `v || null` for a possibly-missing string `v`. -/
def jsOrNull (v : Option Str) : Option Str :=
  match v with
  | some s => if s = [] then none else some s
  | none => none

/-- A node of the input document, as the code dynamically inspects it:
`snippet` carries possibly-missing `name`/`text` fields, `folder` a
possibly-missing `children` mapping, and `malformed` stands for a node
whose `type` discriminator is missing or neither `"snippet"` nor
`"folder"`. -/
inductive RawNode where
  | snippet (name : Option Str) (text : Option Str) : RawNode
  | folder (children : Option (List (Str × RawNode))) : RawNode
  | malformed : RawNode

instance : Inhabited RawNode := ⟨RawNode.malformed⟩

/-- One record of the flat index (`flattenSnippets` result values). -/
structure IndexEntry where
  name : Option Str
  text : Option Str
  path : List Str
  category : Str
  subcategory : Option Str
deriving DecidableEq, Repr, Inhabited

/-- `result[k] = v` on a JS object viewed as an ordered association
list: overwrite in place if the key exists, otherwise append. -/
def objInsert (k : Str) (v : IndexEntry) : List (Str × IndexEntry) → List (Str × IndexEntry)
  | [] => [(k, v)]
  | (k', v') :: rest => if k' = k then (k, v) :: rest else (k', v') :: objInsert k v rest

/-- The body of `flattenSnippets(obj, path, result)`: walk the entries
of `obj` in iteration order; a `snippet` node is written into `result`
keyed by the slash-joined current path; a `folder` node with a
`children` mapping is recursed into; anything else is skipped. -/
def flattenList : List (Str × RawNode) → List Str → List (Str × IndexEntry) → List (Str × IndexEntry)
  | [], _, result => result
  | (key, value) :: rest, path, result =>
    match value with
    | RawNode.snippet name text =>
        flattenList rest path
          (objInsert (jsJoinSlash (path ++ [key]))
            { name := name, text := text, path := path ++ [key],
              category := jsOrElse (path.get? 0) ("Root".toList),
              subcategory := jsOrNull (path.get? 1) } result)
    | RawNode.folder (some children) =>
        flattenList rest path (flattenList children (path ++ [key]) result)
    | RawNode.folder none => flattenList rest path result
    | RawNode.malformed => flattenList rest path result

/-- `flattenSnippets()` at the construction-time call site:
`this.flattenSnippets(this.data.snippets, [], {})`. -/
def flattenSnippets (doc : List (Str × RawNode)) : List (Str × IndexEntry) :=
  flattenList doc [] []

/-- `getSnippet(path)`: `this.flatSnippets[path] || null`. -/
def getSnippet (flat : List (Str × IndexEntry)) (path : Str) : Option IndexEntry :=
  match flat.find? (fun e => decide (e.1 = path)) with
  | some e => some e.2
  | none => none

/-- A record pushed by `getSnippetsInFolder`/`getSnippetsByCategory`:
the spread of the snippet record plus its `fullPath` key. -/
structure FolderResult where
  name : Option Str
  text : Option Str
  path : List Str
  category : Str
  subcategory : Option Str
  fullPath : Str
deriving DecidableEq, Repr, Inhabited

/-- The loop of `getSnippetsInFolder(folderPath)`: push every entry
whose key starts with the precomputed `folderPrefix`. -/
def folderScan (flat : List (Str × IndexEntry)) (folderPrefix : Str) : List FolderResult :=
  match flat with
  | [] => []
  | (path, snippet) :: rest =>
    if jsStartsWith path folderPrefix then
      ⟨snippet.name, snippet.text, snippet.path, snippet.category, snippet.subcategory, path⟩ ::
        folderScan rest folderPrefix
    else folderScan rest folderPrefix

/-- `getSnippetsInFolder(folderPath)` with `folderPrefix = folderPath + "/"`. -/
def getSnippetsInFolder (flat : List (Str × IndexEntry)) (folderPath : Str) : List FolderResult :=
  folderScan flat (folderPath ++ ['/'])

/-- The `options` record of `searchSnippets`, after destructuring. -/
structure SearchOptions where
  searchInText : Bool
  category : Option Str
  maxResults : Int
deriving DecidableEq, Repr, Inhabited

/-- The destructuring defaults of `searchSnippets`:
`searchInText = false`, `category = null`, `maxResults = 20`; this is
what a caller passing `{}` gets. -/
def defaultOptions : SearchOptions := ⟨false, none, 20⟩

/-- A record pushed by the `searchSnippets` loop: the spread of the
snippet record plus `fullPath` and `score`. -/
structure SearchResult where
  name : Option Str
  text : Option Str
  path : List Str
  category : Str
  subcategory : Option Str
  fullPath : Str
  score : Int
deriving DecidableEq, Repr, Inhabited

/-- `calculateRelevanceScore(snippet, query, path)` — `query` is the
already-lowercased query, `path` the slash-joined key, `name` the
snippet's `name` field. -/
def calculateRelevanceScore (name : Str) (query : Str) (path : Str) : Int :=
  (if jsLower name = query then 100
   else if jsIncludes (jsLower name) query then 50 else 0)
  + (if jsIncludes (jsLower path) query then 25 else 0)
  - ((jsSplitSlash path).length : Int)

/-- The result record pushed for a matching entry `(path, snippet)`. -/
def pushResult (path : Str) (snippet : IndexEntry) (lowerQuery : Str) : SearchResult :=
  ⟨snippet.name, snippet.text, snippet.path, snippet.category, snippet.subcategory, path,
    calculateRelevanceScore (snippet.name.getD []) lowerQuery path⟩

/-- The `searchInText` clause of the loop:
`searchInText && snippet.text.toLowerCase().includes(lowerQuery)` —
reading `text.toLowerCase()` when the field is `undefined` throws a
`TypeError`, modelled as `Except.error`. -/
def searchTextCheck (searchInText : Bool) (text : Option Str) (lowerQuery : Str) :
    Except String Bool :=
  if searchInText then
    match text with
    | none => Except.error "TypeError: cannot read toLowerCase of undefined text"
    | some t => Except.ok (jsIncludes (jsLower t) lowerQuery)
  else Except.ok false

/-- The category clause of the loop:
`category && snippet.category.toLowerCase() !== category.toLowerCase()`
(a truthy `category` that mismatches forces `matches = false`). -/
def categoryBlocksMatch (category : Option Str) (snippetCategory : Str) : Bool :=
  match category with
  | some c => !c.isEmpty && !(decide (jsLower snippetCategory = jsLower c))
  | none => false

/-- The `for`-loop of `searchSnippets`, with its early `break` once
`results.length >= maxResults`.  Reading `name.toLowerCase()` from a
record whose field is `undefined` throws a `TypeError`, modelled as
`Except.error`. -/
def searchLoop (entries : List (Str × IndexEntry)) (lowerQuery : Str) (searchInText : Bool)
    (category : Option Str) (maxResults : Int) (results : List SearchResult) :
    Except String (List SearchResult) :=
  match entries with
  | [] => Except.ok results
  | (path, snippet) :: rest =>
    match snippet.name with
    | none => Except.error "TypeError: cannot read toLowerCase of undefined name"
    | some nm =>
      match searchTextCheck searchInText snippet.text lowerQuery with
      | Except.error e => Except.error e
      | Except.ok m3 =>
        let m := jsIncludes (jsLower nm) lowerQuery || jsIncludes (jsLower path) lowerQuery || m3
        let results' := if m && !(categoryBlocksMatch category snippet.category) then
            results ++ [pushResult path snippet lowerQuery]
          else results
        if maxResults ≤ (results'.length : Int) then Except.ok results'
        else searchLoop rest lowerQuery searchInText category maxResults results'

/-- `results.sort((a, b) => b.score - a.score)`: JS `Array.sort` is
guaranteed stable, so it is modelled by the stable `List.mergeSort`
ordering by descending `score`. -/
def jsSortByScoreDesc (results : List SearchResult) : List SearchResult :=
  results.mergeSort (fun a b => decide (b.score ≤ a.score))

/-- `searchSnippets(query, options)`. -/
def searchSnippets (flat : List (Str × IndexEntry)) (query : Str) (options : SearchOptions) :
    Except String (List SearchResult) :=
  match searchLoop flat (jsLower query) options.searchInText options.category
      options.maxResults [] with
  | Except.error e => Except.error e
  | Except.ok results => Except.ok (jsSortByScoreDesc results)

/-- Decidable equality for `Except`, used to evaluate concrete runs of
`searchSnippets` inside `decide`. -/
def exceptDecEq {e a : Type} [DecidableEq e] [DecidableEq a] : DecidableEq (Except e a) :=
  fun x y =>
  match x, y with
  | Except.ok v, Except.ok w =>
    if h : v = w then Decidable.isTrue (by rw [h])
    else Decidable.isFalse (by intro hc; cases hc; exact h rfl)
  | Except.error v, Except.error w =>
    if h : v = w then Decidable.isTrue (by rw [h])
    else Decidable.isFalse (by intro hc; cases hc; exact h rfl)
  | Except.ok _, Except.error _ => Decidable.isFalse (by intro hc; cases hc)
  | Except.error _, Except.ok _ => Decidable.isFalse (by intro hc; cases hc)

instance {e a : Type} [DecidableEq e] [DecidableEq a] : DecidableEq (Except e a) := exceptDecEq

/-! ## Specification-side descriptions of the tree walk -/

/-- The full path (ancestor keys plus own key) of every snippet node
reachable from `entries` under the ancestor path `path`, in the
traversal order of `flattenList`.  Folder nodes contribute no path of
their own. -/
def snipPaths : List (Str × RawNode) → List Str → List (List Str)
  | [], _ => []
  | (key, value) :: rest, path =>
    match value with
    | RawNode.snippet _ _ => (path ++ [key]) :: snipPaths rest path
    | RawNode.folder (some children) => snipPaths children (path ++ [key]) ++ snipPaths rest path
    | RawNode.folder none => snipPaths rest path
    | RawNode.malformed => snipPaths rest path

/-- The number of snippet nodes reachable from `entries`. -/
def countSnippets : List (Str × RawNode) → Nat
  | [] => 0
  | (_, value) :: rest =>
    match value with
    | RawNode.snippet _ _ => 1 + countSnippets rest
    | RawNode.folder (some children) => countSnippets children + countSnippets rest
    | RawNode.folder none => countSnippets rest
    | RawNode.malformed => countSnippets rest

/-- Validity of a document, per the spec: every node is well-formed (a
snippet has `name` and `text`, a folder has a `children` mapping, the
`type` discriminator is present), sibling keys are unique at every
level, and — the spec's constraint on names — no key contains `'/'`. -/
def entriesValid : List (Str × RawNode) → Bool
  | [] => true
  | (key, value) :: rest =>
    decide ('/' ∉ key) &&
    (match value with
     | RawNode.snippet name text => name.isSome && text.isSome
     | RawNode.folder (some children) => entriesValid children
     | RawNode.folder none => false
     | RawNode.malformed => false) &&
    decide (key ∉ rest.map Prod.fst) &&
    entriesValid rest

/-- One path per reachable snippet node: `snipPaths` counts them. -/
theorem length_snipPaths (entries : List (Str × RawNode)) (path : List Str) :
    (snipPaths entries path).length = countSnippets entries := by
  induction entries, path using snipPaths.induct with
  | case2 key rest path nm tx ih => simp [snipPaths, countSnippets, ih]; omega
  | _ => simp [snipPaths, countSnippets, *]

/-! ## The flat index as a JS object: key lemmas for `objInsert` -/

/-- The key sequence of the flat index. -/
def keysOf (flat : List (Str × IndexEntry)) : List Str := flat.map Prod.fst

theorem objInsert_of_not_mem_keys {k : Str} (v : IndexEntry) :
    ∀ {flat : List (Str × IndexEntry)}, k ∉ keysOf flat →
      objInsert k v flat = flat ++ [(k, v)] := by
  intro flat
  induction flat with
  | nil => intro _; rfl
  | cons hd tl ih =>
    intro h
    simp [keysOf] at h
    simp [objInsert, Ne.symm h.1, ih (by simp [keysOf, h.2])]

theorem mem_objInsert {e : Str × IndexEntry} {k : Str} {v : IndexEntry} :
    ∀ {flat : List (Str × IndexEntry)}, e ∈ objInsert k v flat → e = (k, v) ∨ e ∈ flat := by
  intro flat
  induction flat with
  | nil => simp [objInsert]
  | cons hd tl ih =>
    simp only [objInsert]
    by_cases hk : hd.1 = k
    · simp [hk]
      intro h
      rcases h with h | h
      · exact Or.inl h
      · exact Or.inr (Or.inr h)
    · simp [hk]
      intro h
      rcases h with h | h
      · exact Or.inr (Or.inl h)
      · rcases ih h with h' | h'
        · exact Or.inl h'
        · exact Or.inr (Or.inr h')

theorem mem_keys_objInsert {x k : Str} {v : IndexEntry} :
    ∀ {flat : List (Str × IndexEntry)}, x ∈ keysOf (objInsert k v flat) →
      x = k ∨ x ∈ keysOf flat := by
  intro flat
  induction flat with
  | nil => simp [objInsert, keysOf]
  | cons hd tl ih =>
    simp only [objInsert]
    by_cases hk : hd.1 = k
    · simp [hk, keysOf]
    · simp only [hk, if_false, keysOf, List.map_cons, List.mem_cons]
      intro h
      rcases h with h | h
      · exact Or.inr (Or.inl h)
      · rcases ih h with h' | h'
        · exact Or.inl h'
        · exact Or.inr (Or.inr h')

theorem nodup_rotate_singleton {k0 : Str} {l1 l2 : List Str}
    (h : (k0 :: (l1 ++ l2)).Nodup) : (l1 ++ (l2 ++ [k0])).Nodup := by
  rw [← List.append_assoc]
  exact ((List.perm_append_singleton k0 (l1 ++ l2)).symm).nodup h

theorem nodup_append_inner {l1 l2 l3 : List Str}
    (h : ((l1 ++ l2) ++ l3).Nodup) : (l1 ++ l3).Nodup := by
  rw [List.append_assoc] at h
  exact h.sublist ((List.sublist_append_right l2 l3).append_left l1)

theorem nodup_rotate_append {l1 l2 l3 : List Str}
    (h : ((l1 ++ l2) ++ l3).Nodup) : (l2 ++ (l3 ++ l1)).Nodup := by
  rw [List.append_assoc] at h
  have h2 := (@List.perm_append_comm Str l1 (l2 ++ l3)).nodup h
  rw [List.append_assoc] at h2
  exact h2

theorem nodup_keys_objInsert {k : Str} {v : IndexEntry} :
    ∀ {flat : List (Str × IndexEntry)}, (keysOf flat).Nodup →
      (keysOf (objInsert k v flat)).Nodup := by
  intro flat
  induction flat with
  | nil => simp [objInsert, keysOf]
  | cons hd tl ih =>
    simp only [objInsert]
    by_cases hk : hd.1 = k
    · subst hk
      simp [keysOf]
    · simp only [hk, if_false, keysOf, List.map_cons, List.nodup_cons]
      intro h
      refine ⟨fun hc => ?_, ih h.2⟩
      rcases mem_keys_objInsert hc with h' | h'
      · exact hk h'
      · exact h.1 h'

/-! ## Keys of the flat index -/

theorem keys_flattenList :
    ∀ (entries : List (Str × RawNode)) (path : List Str) (result : List (Str × IndexEntry)),
      ((snipPaths entries path).map jsJoinSlash ++ keysOf result).Nodup →
      keysOf (flattenList entries path result) =
        keysOf result ++ (snipPaths entries path).map jsJoinSlash := by
  intro entries path result
  induction entries, path, result using flattenList.induct with
  | case1 path res =>
    intro _
    simp [flattenList, snipPaths]
  | case2 key rest path res nm tx ih =>
    intro h
    simp only [snipPaths, List.map_cons, List.cons_append] at h
    have hk0 : jsJoinSlash (path ++ [key]) ∉ keysOf res := by
      have := (List.nodup_cons.mp h).1
      intro hc
      exact this (List.mem_append_right _ hc)
    have hobj := @objInsert_of_not_mem_keys (jsJoinSlash (path ++ [key]))
      ⟨nm, tx, path ++ [key], jsOrElse (path.get? 0) ("Root".toList), jsOrNull (path.get? 1)⟩
      res hk0
    have hkeys : keysOf (objInsert (jsJoinSlash (path ++ [key]))
        ⟨nm, tx, path ++ [key], jsOrElse (path.get? 0) ("Root".toList), jsOrNull (path.get? 1)⟩ res) =
        keysOf res ++ [jsJoinSlash (path ++ [key])] := by
      rw [hobj]
      simp [keysOf]
    have hih := ih (by
      rw [hkeys]
      exact nodup_rotate_singleton h)
    simp only [flattenList]
    rw [hih, hkeys]
    simp only [snipPaths, List.map_cons, List.append_assoc, List.singleton_append]
  | case3 key rest path res children ih1 ih2 =>
    intro h
    simp only [snipPaths, List.map_append] at h
    have h1 : ((snipPaths children (path ++ [key])).map jsJoinSlash ++ keysOf res).Nodup :=
      nodup_append_inner h
    have hih1 := ih1 h1
    have h2 : ((snipPaths rest path).map jsJoinSlash ++
        keysOf (flattenList children (path ++ [key]) res)).Nodup := by
      rw [hih1]
      exact nodup_rotate_append h
    have hih2 := ih2 h2
    simp only [flattenList]
    rw [hih2, hih1]
    simp [snipPaths, List.append_assoc]
  | case4 key rest path res ih =>
    intro h
    simp only [snipPaths] at h
    simp only [flattenList, snipPaths]
    exact ih h
  | case5 key rest path res ih =>
    intro h
    simp only [snipPaths] at h
    simp only [flattenList, snipPaths]
    exact ih h

/-! ## Valid documents: distinct snippet paths and injective joining -/

theorem snipPaths_shape :
    ∀ (entries : List (Str × RawNode)) (path : List Str), entriesValid entries = true →
      ∀ q ∈ snipPaths entries path, ∃ k t, q = path ++ k :: t ∧ k ∈ entries.map Prod.fst := by
  intro entries path
  induction entries, path using snipPaths.induct with
  | case1 _ => simp [snipPaths]
  | case2 key rest path hv q ih =>
    intro hvalid q hq
    simp only [entriesValid, Bool.and_eq_true] at hvalid
    simp only [snipPaths, List.mem_cons] at hq
    rcases hq with hq | hq
    · exact ⟨key, [], by simpa using hq, by simp⟩
    · obtain ⟨k, t, het, hkm⟩ := ih hvalid.2 q hq
      exact ⟨k, t, het, by simp [List.mem_cons]; right; simpa using hkm⟩
  | case3 key rest path children ih1 ih2 =>
    intro hvalid q hq
    simp only [entriesValid, Bool.and_eq_true] at hvalid
    simp only [snipPaths, List.mem_append] at hq
    rcases hq with hq | hq
    · obtain ⟨k, t, het, _⟩ := ih1 hvalid.1.1.2 q hq
      refine ⟨key, [] ++ k :: t, ?_, by simp⟩
      rw [het]
      simp
    · obtain ⟨k, t, het, hkm⟩ := ih2 hvalid.2 q hq
      exact ⟨k, t, het, by simp [List.mem_cons]; right; simpa using hkm⟩
  | case4 key rest path ih =>
    intro hvalid
    simp only [entriesValid, Bool.and_eq_true] at hvalid
    exact absurd hvalid.1.1.2 (by simp)
  | case5 key rest path ih =>
    intro hvalid
    simp only [entriesValid, Bool.and_eq_true] at hvalid
    exact absurd hvalid.1.1.2 (by simp)

theorem snipPaths_nodup :
    ∀ (entries : List (Str × RawNode)) (path : List Str), entriesValid entries = true →
      (snipPaths entries path).Nodup := by
  intro entries path
  induction entries, path using snipPaths.induct with
  | case1 _ => simp [snipPaths]
  | case2 key rest path nm tx ih =>
    intro hvalid
    simp only [entriesValid, Bool.and_eq_true] at hvalid
    simp only [snipPaths, List.nodup_cons]
    refine ⟨fun hc => ?_, ih hvalid.2⟩
    obtain ⟨k, t, het, hkm⟩ := snipPaths_shape rest path hvalid.2 _ hc
    have : ([key] : List Str) = k :: t := List.append_inj_right het rfl
    have hk : k = key := by
      cases this
      rfl
    rw [hk] at hkm
    exact (by simpa using hvalid.1.2 : key ∉ rest.map Prod.fst) hkm
  | case3 key rest path children ih1 ih2 =>
    intro hvalid
    simp only [entriesValid, Bool.and_eq_true] at hvalid
    simp only [snipPaths]
    refine (ih1 hvalid.1.1.2).append (ih2 hvalid.2) ?_
    intro q hq1 hq2
    obtain ⟨k1, t1, he1, _⟩ := snipPaths_shape children (path ++ [key]) hvalid.1.1.2 q hq1
    obtain ⟨k2, t2, he2, hk2⟩ := snipPaths_shape rest path hvalid.2 q hq2
    rw [he2, List.append_assoc] at he1
    have : (key :: (k1 :: t1) : List Str) = k2 :: t2 := by
      have := List.append_inj_right he1.symm rfl
      simpa using this
    have hk : k2 = key := by
      cases this
      rfl
    rw [hk] at hk2
    exact (by simpa using hvalid.1.2 : key ∉ rest.map Prod.fst) hk2
  | case4 key rest path ih =>
    intro hvalid
    simp only [entriesValid, Bool.and_eq_true] at hvalid
    exact absurd hvalid.1.1.2 (by simp)
  | case5 key rest path ih =>
    intro hvalid
    simp only [entriesValid, Bool.and_eq_true] at hvalid
    exact absurd hvalid.1.1.2 (by simp)

theorem snipPaths_slashfree :
    ∀ (entries : List (Str × RawNode)) (path : List Str), entriesValid entries = true →
      (∀ c ∈ path, '/' ∉ c) → ∀ q ∈ snipPaths entries path, ∀ c ∈ q, '/' ∉ c := by
  intro entries path
  induction entries, path using snipPaths.induct with
  | case1 _ => simp [snipPaths]
  | case2 key rest path nm tx ih =>
    intro hvalid hp q hq
    simp only [entriesValid, Bool.and_eq_true, decide_eq_true_eq] at hvalid
    simp only [snipPaths, List.mem_cons] at hq
    rcases hq with hq | hq
    · subst hq
      intro c hc
      rcases List.mem_append.mp hc with h | h
      · exact hp c h
      · simp only [List.mem_singleton] at h
        subst h
        exact hvalid.1.1.1
    · exact ih hvalid.2 hp q hq
  | case3 key rest path children ih1 ih2 =>
    intro hvalid hp q hq
    simp only [entriesValid, Bool.and_eq_true, decide_eq_true_eq] at hvalid
    simp only [snipPaths, List.mem_append] at hq
    rcases hq with hq | hq
    · refine ih1 hvalid.1.1.2 ?_ q hq
      intro c hc
      rcases List.mem_append.mp hc with h | h
      · exact hp c h
      · simp only [List.mem_singleton] at h
        subst h
        exact hvalid.1.1.1
    · exact ih2 hvalid.2 hp q hq
  | case4 key rest path ih =>
    intro hvalid
    simp only [entriesValid, Bool.and_eq_true] at hvalid
    exact absurd hvalid.1.1.2 (by simp)
  | case5 key rest path ih =>
    intro hvalid
    simp only [entriesValid, Bool.and_eq_true] at hvalid
    exact absurd hvalid.1.1.2 (by simp)

theorem append_slash_inj :
    ∀ {a b x y : Str}, '/' ∉ a → '/' ∉ b → a ++ '/' :: x = b ++ '/' :: y →
      a = b ∧ x = y := by
  intro a
  induction a with
  | nil =>
    intro b x y _ hb h
    cases b with
    | nil => simpa using h
    | cons d bs =>
      exfalso
      simp only [List.nil_append, List.cons_append, List.cons.injEq] at h
      exact hb (by simp [← h.1])
  | cons c as ih =>
    intro b x y ha hb h
    cases b with
    | nil =>
      exfalso
      simp only [List.nil_append, List.cons_append, List.cons.injEq] at h
      exact ha (by simp [h.1])
    | cons d bs =>
      simp only [List.cons_append, List.cons.injEq] at h
      have hcd := h.1
      obtain ⟨h1, h2⟩ := ih (by simp at ha; exact ha.2) (by simp at hb; exact hb.2) h.2
      exact ⟨by rw [hcd, h1], h2⟩

theorem jsJoinSlash_inj :
    ∀ (a b : List Str), (∀ c ∈ a, '/' ∉ c) → (∀ c ∈ b, '/' ∉ c) →
      a ≠ [] → b ≠ [] → jsJoinSlash a = jsJoinSlash b → a = b := by
  intro a
  induction a with
  | nil => intro b _ _ hne; exact absurd rfl hne
  | cons a0 as ih =>
    intro b ha hb _ hbne h
    cases b with
    | nil => exact absurd rfl hbne
    | cons b0 bs =>
      cases as with
      | nil =>
        cases bs with
        | nil => simpa [jsJoinSlash] using h
        | cons b1 bt =>
          exfalso
          simp only [jsJoinSlash] at h
          refine ha a0 (by simp) ?_
          rw [h]
          simp
      | cons a1 at' =>
        cases bs with
        | nil =>
          exfalso
          simp only [jsJoinSlash] at h
          refine hb b0 (by simp) ?_
          rw [← h]
          simp
        | cons b1 bt =>
          simp only [jsJoinSlash] at h
          obtain ⟨h1, h2⟩ := append_slash_inj (ha a0 (by simp)) (hb b0 (by simp)) h
          have htail : (a1 :: at' : List Str) = b1 :: bt := by
            refine ih (b1 :: bt) ?_ ?_ (by simp) (by simp) h2
            · intro c hc
              exact ha c (by simp [hc])
            · intro c hc
              exact hb c (by simp [hc])
          rw [h1, htail]

theorem snipPaths_join_nodup (doc : List (Str × RawNode)) (hvalid : entriesValid doc = true) :
    ((snipPaths doc []).map jsJoinSlash).Nodup := by
  refine List.Nodup.map_on ?_ (snipPaths_nodup doc [] hvalid)
  intro x hx y hy hxy
  obtain ⟨kx, tx, hex, _⟩ := snipPaths_shape doc [] hvalid x hx
  obtain ⟨ky, ty, hey, _⟩ := snipPaths_shape doc [] hvalid y hy
  refine jsJoinSlash_inj x y ?_ ?_ ?_ ?_ hxy
  · exact snipPaths_slashfree doc [] hvalid (by simp) x hx
  · exact snipPaths_slashfree doc [] hvalid (by simp) y hy
  · rw [hex]; simp
  · rw [hey]; simp

theorem keys_flattenSnippets (doc : List (Str × RawNode)) (hvalid : entriesValid doc = true) :
    keysOf (flattenSnippets doc) = (snipPaths doc []).map jsJoinSlash := by
  have h := keys_flattenList doc [] [] (by
    simpa [keysOf] using snipPaths_join_nodup doc hvalid)
  simpa [keysOf, flattenSnippets] using h

theorem length_flattenSnippets (doc : List (Str × RawNode))
    (hvalid : entriesValid doc = true) :
    (flattenSnippets doc).length = countSnippets doc := by
  have h1 : (flattenSnippets doc).length = (keysOf (flattenSnippets doc)).length := by
    simp [keysOf]
  rw [h1, keys_flattenSnippets doc hvalid, List.length_map, length_snipPaths]

/-! ## Round-trip between indexing and exact lookup -/

theorem nodup_keys_flattenList :
    ∀ (entries : List (Str × RawNode)) (path : List Str) (result : List (Str × IndexEntry)),
      (keysOf result).Nodup → (keysOf (flattenList entries path result)).Nodup := by
  intro entries path result
  induction entries, path, result using flattenList.induct with
  | case1 path res =>
    intro h
    simpa [flattenList] using h
  | case2 key rest path res nm tx ih =>
    intro h
    simp only [flattenList]
    exact ih (nodup_keys_objInsert h)
  | case3 key rest path res children ih1 ih2 =>
    intro h
    simp only [flattenList]
    exact ih2 (ih1 h)
  | case4 key rest path res ih =>
    intro h
    simp only [flattenList]
    exact ih h
  | case5 key rest path res ih =>
    intro h
    simp only [flattenList]
    exact ih h

theorem key_eq_join_path_flattenList :
    ∀ (entries : List (Str × RawNode)) (path : List Str) (result : List (Str × IndexEntry)),
      (∀ e ∈ result, e.1 = jsJoinSlash e.2.path) →
      ∀ e ∈ flattenList entries path result, e.1 = jsJoinSlash e.2.path := by
  intro entries path result
  induction entries, path, result using flattenList.induct with
  | case1 path res =>
    intro h
    simpa [flattenList] using h
  | case2 key rest path res nm tx ih =>
    intro h
    simp only [flattenList]
    refine ih ?_
    intro e he
    rcases mem_objInsert he with he' | he'
    · rw [he']
    · exact h e he'
  | case3 key rest path res children ih1 ih2 =>
    intro h
    simp only [flattenList]
    exact ih2 (ih1 h)
  | case4 key rest path res ih =>
    intro h
    simp only [flattenList]
    exact ih h
  | case5 key rest path res ih =>
    intro h
    simp only [flattenList]
    exact ih h

theorem getSnippet_of_mem_of_nodup :
    ∀ {flat : List (Str × IndexEntry)} {k : Str} {v : IndexEntry},
      (keysOf flat).Nodup → (k, v) ∈ flat → getSnippet flat k = some v := by
  intro flat
  induction flat with
  | nil => simp
  | cons hd tl ih =>
    intro k v hnd hm
    simp only [keysOf, List.map_cons, List.nodup_cons] at hnd
    rcases List.mem_cons.mp hm with he | he
    · rw [← he]
      simp [getSnippet, List.find?]
    · by_cases hk : hd.1 = k
      · exfalso
        refine hnd.1 ?_
        rw [hk]
        exact List.mem_map.mpr ⟨(k, v), he, rfl⟩
      · have := ih hnd.2 he
        simp only [getSnippet, List.find?] at this ⊢
        simp [hk]
        exact this

/-! ## Search: matching predicate, candidates, scores -/

/-- Modelled from the spec: the relevance score of an entry with name
`name` at joined path `pathStr` for (raw, un-lowered) query `query` —
start at 0; add 100 if `name` case-insensitively equals `query`
exactly, otherwise add 50 if `name` case-insensitively contains
`query`; add 25 if the path string case-insensitively contains
`query`; subtract the number of path segments of the path string. -/
def specScore (name : Str) (query : Str) (pathStr : Str) : Int :=
  (if jsLower name = jsLower query then 100
   else if jsIncludes (jsLower name) (jsLower query) then 50 else 0)
  + (if jsIncludes (jsLower pathStr) (jsLower query) then 25 else 0)
  - ((jsSplitSlash pathStr).length : Int)

/-- The matching predicate of the `searchSnippets` loop, as a pure
function of one entry: name, path, or (under `searchInText`) text
contains the lowered query, and the entry is not blocked by a truthy
`category` filter that mismatches. -/
def entryMatches (lowerQuery : Str) (searchInText : Bool) (category : Option Str)
    (e : Str × IndexEntry) : Bool :=
  (jsIncludes (jsLower (e.2.name.getD [])) lowerQuery ||
    jsIncludes (jsLower e.1) lowerQuery ||
    (searchInText && jsIncludes (jsLower (e.2.text.getD [])) lowerQuery)) &&
  !(categoryBlocksMatch category e.2.category)

/-- All matching entries of the index in iteration order, scored — the
un-capped candidate list of a search. -/
def searchCandidates (flat : List (Str × IndexEntry)) (query : Str)
    (options : SearchOptions) : List SearchResult :=
  (flat.filter (entryMatches (jsLower query) options.searchInText options.category)).map
    (fun e => pushResult e.1 e.2 (jsLower query))

theorem searchLoop_score_inv (lq : Str) (sit : Bool) (cat : Option Str) (maxR : Int) :
    ∀ (entries : List (Str × IndexEntry)) (acc out : List SearchResult),
      (∀ r ∈ acc, ∃ n, r.name = some n ∧ r.score = calculateRelevanceScore n lq r.fullPath) →
      searchLoop entries lq sit cat maxR acc = Except.ok out →
      ∀ r ∈ out, ∃ n, r.name = some n ∧ r.score = calculateRelevanceScore n lq r.fullPath := by
  intro entries
  induction entries with
  | nil =>
    intro acc out hacc hok
    simp only [searchLoop, Except.ok.injEq] at hok
    rw [← hok]
    exact hacc
  | cons e rest ih =>
    intro acc out hacc hok
    obtain ⟨path, snippet⟩ := e
    simp only [searchLoop] at hok
    cases hnm : snippet.name with
    | none => rw [hnm] at hok; exact absurd hok (by simp)
    | some nm =>
      rw [hnm] at hok
      simp only at hok
      rcases htc : searchTextCheck sit snippet.text lq with he | m3
      · rw [htc] at hok
        exact absurd hok (by simp)
      · rw [htc] at hok
        simp only at hok
        have hpush : ∀ r ∈ acc ++ [pushResult path snippet lq],
            ∃ n, r.name = some n ∧ r.score = calculateRelevanceScore n lq r.fullPath := by
          intro r hr
          rcases List.mem_append.mp hr with h | h
          · exact hacc r h
          · simp only [List.mem_singleton] at h
            subst h
            exact ⟨nm, by simp [pushResult, hnm]⟩
        by_cases hm : ((jsIncludes (jsLower nm) lq || jsIncludes (jsLower path) lq || m3) &&
            !(categoryBlocksMatch cat snippet.category)) = true
        · rw [if_pos hm] at hok
          by_cases hbrk : maxR ≤ ((acc ++ [pushResult path snippet lq]).length : Int)
          · rw [if_pos hbrk] at hok
            simp only [Except.ok.injEq] at hok
            rw [← hok]
            exact hpush
          · rw [if_neg hbrk] at hok
            exact ih _ out hpush hok
        · rw [if_neg hm] at hok
          by_cases hbrk : maxR ≤ (acc.length : Int)
          · rw [if_pos hbrk] at hok
            simp only [Except.ok.injEq] at hok
            rw [← hok]
            exact hacc
          · rw [if_neg hbrk] at hok
            exact ih _ out hacc hok

theorem searchLoop_eq_ok (lq : Str) (sit : Bool) (cat : Option Str) (maxR : Int) :
    ∀ (entries : List (Str × IndexEntry)) (acc : List SearchResult),
      (∀ e ∈ entries, (e.2 : IndexEntry).name.isSome = true) →
      (sit = true → ∀ e ∈ entries, (e.2 : IndexEntry).text.isSome = true) →
      ((acc.length : Int) < maxR) →
      searchLoop entries lq sit cat maxR acc =
        Except.ok (acc ++ ((entries.filter (entryMatches lq sit cat)).map
          (fun e => pushResult e.1 e.2 lq)).take (maxR - (acc.length : Int)).toNat) := by
  intro entries
  induction entries with
  | nil =>
    intro acc _ _ _
    simp [searchLoop]
  | cons e rest ih =>
    intro acc hn ht hlen
    obtain ⟨path, snippet⟩ := e
    have hnm0 : snippet.name.isSome = true := hn (path, snippet) (by simp)
    obtain ⟨nm, hnm⟩ := Option.isSome_iff_exists.mp hnm0
    have htc : searchTextCheck sit snippet.text lq =
        Except.ok (sit && jsIncludes (jsLower (snippet.text.getD [])) lq) := by
      cases hs : sit
      · simp [searchTextCheck]
      · obtain ⟨t, htx⟩ := Option.isSome_iff_exists.mp (ht hs (path, snippet) (by simp))
        have htx' : snippet.text = some t := htx
        simp [searchTextCheck, htx', hs]
    simp only [searchLoop, hnm, htc]
    have hm_eq : ((jsIncludes (jsLower nm) lq || jsIncludes (jsLower path) lq ||
        (sit && jsIncludes (jsLower (snippet.text.getD [])) lq)) &&
        !(categoryBlocksMatch cat snippet.category)) = entryMatches lq sit cat (path, snippet) := by
      simp [entryMatches, hnm]
    rw [hm_eq]
    by_cases hM : entryMatches lq sit cat (path, snippet) = true
    · rw [if_pos hM, List.filter_cons_of_pos hM]
      obtain ⟨k1, hk1⟩ : ∃ k1, (maxR - (acc.length : Int)).toNat = k1 + 1 :=
        ⟨(maxR - (acc.length : Int)).toNat - 1, by omega⟩
      by_cases hbrk : maxR ≤ (((acc ++ [pushResult path snippet lq]).length : Nat) : Int)
      · rw [if_pos hbrk]
        simp only [List.length_append, List.length_singleton] at hbrk
        have hk : (maxR - (acc.length : Int)).toNat = 1 := by
          push_cast at hbrk
          omega
        rw [hk]
        simp [List.take]
      · rw [if_neg hbrk]
        simp only [List.length_append, List.length_singleton] at hbrk
        have hlen' : (((acc ++ [pushResult path snippet lq]).length : Nat) : Int) < maxR := by
          simp only [List.length_append, List.length_singleton]
          push_cast
          push_cast at hbrk
          omega
        rw [ih (acc ++ [pushResult path snippet lq]) (fun x hx => hn x (by simp [hx]))
          (fun hs x hx => ht hs x (by simp [hx])) hlen']
        have hk2 : (maxR - (((acc ++ [pushResult path snippet lq]).length : Nat) : Int)).toNat = k1 := by
          simp only [List.length_append, List.length_singleton]
          push_cast
          omega
        rw [hk2, List.map_cons, hk1, List.take_succ_cons]
        simp
    · have hM' : entryMatches lq sit cat (path, snippet) = false := by
        simpa using hM
      rw [if_neg hM, List.filter_cons_of_neg (by simp [hM'])]
      rw [if_neg (by exact not_le.mpr hlen)]
      exact ih acc (fun x hx => hn x (by simp [hx])) (fun hs x hx => ht hs x (by simp [hx])) hlen

theorem searchLoop_fullPath_sublist (lq : Str) (sit : Bool) (cat : Option Str) (maxR : Int) :
    ∀ (entries : List (Str × IndexEntry)) (acc out : List SearchResult),
      searchLoop entries lq sit cat maxR acc = Except.ok out →
      (out.map SearchResult.fullPath).Sublist
        ((acc.map SearchResult.fullPath) ++ entries.map Prod.fst) := by
  intro entries
  induction entries with
  | nil =>
    intro acc out hok
    simp only [searchLoop, Except.ok.injEq] at hok
    rw [← hok]
    simp
  | cons e rest ih =>
    intro acc out hok
    obtain ⟨path, snippet⟩ := e
    simp only [searchLoop] at hok
    cases hnm : snippet.name with
    | none => rw [hnm] at hok; exact absurd hok (by simp)
    | some nm =>
      rw [hnm] at hok
      simp only at hok
      rcases htc : searchTextCheck sit snippet.text lq with he | m3
      · rw [htc] at hok
        exact absurd hok (by simp)
      · rw [htc] at hok
        simp only at hok
        by_cases hm : ((jsIncludes (jsLower nm) lq || jsIncludes (jsLower path) lq || m3) &&
            !(categoryBlocksMatch cat snippet.category)) = true
        · rw [if_pos hm] at hok
          by_cases hbrk : maxR ≤ ((acc ++ [pushResult path snippet lq]).length : Int)
          · rw [if_pos hbrk] at hok
            simp only [Except.ok.injEq] at hok
            rw [← hok]
            simp only [List.map_append, List.map_cons, List.map_nil, List.map_singleton,
              pushResult]
            refine List.Sublist.append_left ?_ _
            simp
          · rw [if_neg hbrk] at hok
            have h := ih _ out hok
            simp only [List.map_append, List.map_singleton, pushResult] at h
            rw [List.append_assoc] at h
            simpa using h
        · rw [if_neg hm] at hok
          by_cases hbrk : maxR ≤ (acc.length : Int)
          · rw [if_pos hbrk] at hok
            simp only [Except.ok.injEq] at hok
            rw [← hok]
            exact List.sublist_append_left _ _
          · rw [if_neg hbrk] at hok
            have h := ih _ out hok
            refine h.trans ?_
            refine List.Sublist.append_left ?_ _
            exact List.sublist_cons_self path _

theorem searchLoop_total (lq : Str) (sit : Bool) (cat : Option Str) (maxR : Int) :
    ∀ (entries : List (Str × IndexEntry)) (acc : List SearchResult),
      (∀ e ∈ entries, (e.2 : IndexEntry).name.isSome = true) →
      (sit = true → ∀ e ∈ entries, (e.2 : IndexEntry).text.isSome = true) →
      ∃ out, searchLoop entries lq sit cat maxR acc = Except.ok out := by
  intro entries
  induction entries with
  | nil =>
    intro acc _ _
    exact ⟨acc, rfl⟩
  | cons e rest ih =>
    intro acc hn ht
    obtain ⟨path, snippet⟩ := e
    obtain ⟨nm, hnm0⟩ := Option.isSome_iff_exists.mp (hn (path, snippet) (by simp))
    have hnm : snippet.name = some nm := hnm0
    have htc : searchTextCheck sit snippet.text lq =
        Except.ok (sit && jsIncludes (jsLower (snippet.text.getD [])) lq) := by
      cases hs : sit
      · simp [searchTextCheck]
      · obtain ⟨t, htx⟩ := Option.isSome_iff_exists.mp (ht hs (path, snippet) (by simp))
        have htx' : snippet.text = some t := htx
        simp [searchTextCheck, htx', hs]
    simp only [searchLoop, hnm, htc]
    by_cases hbrk : maxR ≤ (((if ((jsIncludes (jsLower nm) lq || jsIncludes (jsLower path) lq ||
        (sit && jsIncludes (jsLower (snippet.text.getD [])) lq)) &&
        !(categoryBlocksMatch cat snippet.category)) = true then
          acc ++ [pushResult path snippet lq] else acc).length : Nat) : Int)
    · rw [if_pos hbrk]
      exact ⟨_, rfl⟩
    · rw [if_neg hbrk]
      exact ih _ (fun x hx => hn x (by simp [hx])) (fun hs x hx => ht hs x (by simp [hx]))

/-! ## The stable descending sort -/

theorem scoreDesc_trans : ∀ (a b c : SearchResult),
    (fun a b => decide (b.score ≤ a.score)) a b = true →
    (fun a b => decide (b.score ≤ a.score)) b c = true →
    (fun a b => decide (b.score ≤ a.score)) a c = true := by
  intro a b c hab hbc
  simp only [decide_eq_true_eq] at hab hbc ⊢
  omega

theorem scoreDesc_total : ∀ (a b : SearchResult),
    ((fun a b => decide (b.score ≤ a.score)) a b ||
     (fun a b => decide (b.score ≤ a.score)) b a) = true := by
  intro a b
  simp only [Bool.or_eq_true, decide_eq_true_eq]
  omega

theorem jsSortByScoreDesc_pairwise (l : List SearchResult) :
    (jsSortByScoreDesc l).Pairwise (fun a b => b.score ≤ a.score) := by
  have h : (jsSortByScoreDesc l).Pairwise
      (fun a b => decide (b.score ≤ a.score) = true) :=
    List.sorted_mergeSort scoreDesc_trans scoreDesc_total l
  exact h.imp (fun hab => by simpa using hab)

theorem jsSortByScoreDesc_perm (l : List SearchResult) :
    (jsSortByScoreDesc l).Perm l :=
  List.mergeSort_perm l _

theorem jsSortByScoreDesc_filter_score (l : List SearchResult) (s : Int) :
    (jsSortByScoreDesc l).filter (fun r => decide (r.score = s)) =
      l.filter (fun r => decide (r.score = s)) := by
  have hpw : (l.filter (fun r => decide (r.score = s))).Pairwise
      (fun a b => (fun a b => decide (b.score ≤ a.score)) a b = true) := by
    refine List.pairwise_of_forall_mem_list ?_
    intro a ha b hb
    have ha' := (List.mem_filter.mp ha).2
    have hb' := (List.mem_filter.mp hb).2
    simp only [decide_eq_true_eq] at ha' hb' ⊢
    omega
  have h1 : (l.filter (fun r => decide (r.score = s))).Sublist
      (jsSortByScoreDesc l) :=
    List.sublist_mergeSort scoreDesc_trans scoreDesc_total hpw (List.filter_sublist l)
  have hself : (l.filter (fun r => decide (r.score = s))).filter
      (fun r => decide (r.score = s)) = l.filter (fun r => decide (r.score = s)) :=
    List.filter_eq_self.mpr (fun a ha => (List.mem_filter.mp ha).2)
  have h2 : (l.filter (fun r => decide (r.score = s))).Sublist
      ((jsSortByScoreDesc l).filter (fun r => decide (r.score = s))) := by
    have h := h1.filter (fun r => decide (r.score = s))
    rwa [hself] at h
  have h3 : ((jsSortByScoreDesc l).filter (fun r => decide (r.score = s))).Perm
      (l.filter (fun r => decide (r.score = s))) :=
    (jsSortByScoreDesc_perm l).filter _
  exact (h2.eq_of_length h3.length_eq.symm).symm

/-! ## Characterization of a full search run -/

theorem jsIncludes_nil (s : Str) : jsIncludes s [] = true := by
  induction s with
  | nil => simp [jsIncludes, List.isEmpty]
  | cons c rest ih => simp [jsIncludes, ih, List.isPrefixOf]

theorem jsLower_eq_nil_iff (s : Str) : jsLower s = [] ↔ s = [] := by
  simp [jsLower]

theorem searchSnippets_eq_ok (flat : List (Str × IndexEntry)) (q : Str)
    (opts : SearchOptions)
    (hn : ∀ e ∈ flat, (e.2 : IndexEntry).name.isSome = true)
    (ht : opts.searchInText = true → ∀ e ∈ flat, (e.2 : IndexEntry).text.isSome = true)
    (hpos : 1 ≤ opts.maxResults) :
    searchSnippets flat q opts =
      Except.ok (jsSortByScoreDesc
        ((searchCandidates flat q opts).take opts.maxResults.toNat)) := by
  simp only [searchSnippets]
  rw [searchLoop_eq_ok (jsLower q) opts.searchInText opts.category opts.maxResults flat []
    hn ht (by simpa using hpos)]
  simp [searchCandidates]

/-! ## Concrete documents and indexes for witnesses and counterexamples -/

/-- The scenario document of the spec: `"Hello"` at `A/Hello` and
`"Hello World"` at `B/C/Hello World`. -/
def exDoc8 : List (Str × RawNode) :=
  [("A".toList, RawNode.folder (some
      [("Hello".toList, RawNode.snippet (some "Hello".toList) (some "x".toList))])),
   ("B".toList, RawNode.folder (some
      [("C".toList, RawNode.folder (some
        [("Hello World".toList,
          RawNode.snippet (some "Hello World".toList) (some "y".toList))]))]))]

def exE1 : IndexEntry :=
  ⟨some "Hello".toList, some "x".toList, ["A".toList, "Hello".toList], "A".toList, none⟩

def exE2 : IndexEntry :=
  ⟨some "Hello World".toList, some "y".toList,
    ["B".toList, "C".toList, "Hello World".toList], "B".toList, some "C".toList⟩

def exFlat8 : List (Str × IndexEntry) :=
  [("A/Hello".toList, exE1), ("B/C/Hello World".toList, exE2)]

theorem flattenSnippets_exDoc8 : flattenSnippets exDoc8 = exFlat8 := by
  simp [flattenSnippets, exDoc8, flattenList, objInsert, jsJoinSlash, jsOrElse, jsOrNull,
    exFlat8, exE1, exE2]

/-- The scored results of `search("Hello", {})` on that index. -/
def exR1 : SearchResult :=
  ⟨some "Hello".toList, some "x".toList, ["A".toList, "Hello".toList], "A".toList, none,
    "A/Hello".toList, 123⟩

def exR2 : SearchResult :=
  ⟨some "Hello World".toList, some "y".toList,
    ["B".toList, "C".toList, "Hello World".toList], "B".toList, some "C".toList,
    "B/C/Hello World".toList, 72⟩

set_option maxRecDepth 40000 in
theorem searchLoop_exFlat8 :
    searchLoop exFlat8 (jsLower "Hello".toList) false none 20 [] =
      Except.ok [exR1, exR2] := by
  decide

theorem searchSnippets_exFlat8 :
    searchSnippets exFlat8 "Hello".toList defaultOptions = Except.ok [exR1, exR2] := by
  simp only [searchSnippets, defaultOptions]
  rw [searchLoop_exFlat8]
  have hsorted : jsSortByScoreDesc [exR1, exR2] = [exR1, exR2] :=
    List.mergeSort_of_sorted (by decide)
  simp only [hsorted]

/-- A one-snippet document: a top-level snippet named `"A"`. -/
def exDocA : List (Str × RawNode) :=
  [("A".toList, RawNode.snippet (some "A".toList) (some "x".toList))]

def exEA : IndexEntry := ⟨some "A".toList, some "x".toList, ["A".toList], "Root".toList, none⟩

def exFlatA : List (Str × IndexEntry) := [("A".toList, exEA)]

theorem flattenSnippets_exDocA : flattenSnippets exDocA = exFlatA := by
  simp [flattenSnippets, exDocA, flattenList, objInsert, jsJoinSlash, jsOrElse, jsOrNull,
    exFlatA, exEA]

/-- The result of scanning `exFlatA` with the empty query: matched with
score `50 + 25 - 1 = 74`. -/
def exRA0 : SearchResult :=
  ⟨some "A".toList, some "x".toList, ["A".toList], "Root".toList, none, "A".toList, 74⟩

/-- The result of scanning `exFlatA` with query `"a"`: an exact
case-insensitive name match, score `100 + 25 - 1 = 124`. -/
def exRAa : SearchResult :=
  ⟨some "A".toList, some "x".toList, ["A".toList], "Root".toList, none, "A".toList, 124⟩

/-- A document whose only snippet has the empty string as `name`. -/
def exDocE : List (Str × RawNode) :=
  [("E".toList, RawNode.snippet (some []) (some "x".toList))]

def exEE : IndexEntry := ⟨some [], some "x".toList, ["E".toList], "Root".toList, none⟩

theorem flattenSnippets_exDocE :
    flattenSnippets exDocE = [("E".toList, exEE)] := by
  simp [flattenSnippets, exDocE, flattenList, objInsert, jsJoinSlash, jsOrElse, jsOrNull, exEE]

/-- The result of the empty-query search on `exDocE`: the empty name is
an exact match for the empty query, so the score is `100 + 25 - 1`. -/
def exRE : SearchResult :=
  ⟨some [], some "x".toList, ["E".toList], "Root".toList, none, "E".toList, 124⟩

/-- A document with one node per malformed shape, plus a good snippet:
a node with a missing/unknown `type`, a folder without `children`, a
snippet without `text`, and a well-formed snippet. -/
def exDocBad : List (Str × RawNode) :=
  [("NoType".toList, RawNode.malformed),
   ("Empty".toList, RawNode.folder none),
   ("NoText".toList, RawNode.snippet (some "N".toList) none),
   ("Good".toList, RawNode.snippet (some "G".toList) (some "g".toList))]

/-- A handmade index with an entry whose full path is exactly `"A"` and
another at `"A/B"`. -/
def exFlatC7 : List (Str × IndexEntry) :=
  [("A".toList, ⟨some "A".toList, some "x".toList, ["A".toList], "Root".toList, none⟩),
   ("A/B".toList, ⟨some "B".toList, some "y".toList, ["A".toList, "B".toList], "A".toList, none⟩)]

/-! ## Entries of a valid document's index have both fields present -/

theorem flattenList_fields_present :
    ∀ (entries : List (Str × RawNode)) (path : List Str) (result : List (Str × IndexEntry)),
      entriesValid entries = true →
      (∀ e ∈ result, (e.2 : IndexEntry).name.isSome = true ∧ (e.2 : IndexEntry).text.isSome = true) →
      ∀ e ∈ flattenList entries path result,
        (e.2 : IndexEntry).name.isSome = true ∧ (e.2 : IndexEntry).text.isSome = true := by
  intro entries path result
  induction entries, path, result using flattenList.induct with
  | case1 path res =>
    intro _ h
    simpa [flattenList] using h
  | case2 key rest path res nm tx ih =>
    intro hvalid hres
    simp only [entriesValid, Bool.and_eq_true] at hvalid
    simp only [flattenList]
    refine ih hvalid.2 ?_
    intro e he
    rcases mem_objInsert he with he' | he'
    · rw [he']
      exact ⟨hvalid.1.1.2.1, hvalid.1.1.2.2⟩
    · exact hres e he'
  | case3 key rest path res children ih1 ih2 =>
    intro hvalid hres
    simp only [entriesValid, Bool.and_eq_true] at hvalid
    simp only [flattenList]
    exact ih2 hvalid.2 (ih1 hvalid.1.1.2 hres)
  | case4 key rest path res ih =>
    intro hvalid _
    simp only [entriesValid, Bool.and_eq_true] at hvalid
    exact absurd hvalid.1.1.2 (by simp)
  | case5 key rest path res ih =>
    intro hvalid _
    simp only [entriesValid, Bool.and_eq_true] at hvalid
    exact absurd hvalid.1.1.2 (by simp)

/-! ## Folder filtering -/

theorem folderScan_eq_filter (flat : List (Str × IndexEntry)) (pre : Str) :
    folderScan flat pre = (flat.filter (fun e => jsStartsWith e.1 pre)).map
      (fun e => ⟨e.2.name, e.2.text, e.2.path, e.2.category, e.2.subcategory, e.1⟩) := by
  induction flat with
  | nil => simp [folderScan]
  | cons e rest ih =>
    obtain ⟨path, snippet⟩ := e
    by_cases h : jsStartsWith path pre = true
    · simp [folderScan, h, List.filter_cons_of_pos, ih]
    · have h' : jsStartsWith path pre = false := by simpa using h
      simp [folderScan, h', ih]

theorem not_jsStartsWith_self_slash (f : Str) : jsStartsWith f (f ++ ['/']) = false := by
  by_contra h
  have h' : (f ++ ['/']).isPrefixOf f = true := by
    simpa [jsStartsWith] using h
  have hp : (f ++ ['/']) <+: f := List.isPrefixOf_iff_prefix.mp h'
  have := hp.length_le
  simp at this

theorem jsStartsWith_append_tail (f tail : Str) :
    jsStartsWith (f ++ '/' :: tail) (f ++ ['/']) = true := by
  simp only [jsStartsWith]
  refine List.isPrefixOf_iff_prefix.mpr ?_
  exact ⟨tail, by simp⟩

/-! ## The claims -/

/-- C1: for every entry passing the search predicate, the relevance
score computed for it equals the spec formula: 0, plus 100 if the name
case-insensitively equals the query exactly, otherwise plus 50 if the
name case-insensitively contains the query; plus 25 if the path string
case-insensitively contains the query; minus the number of path
segments of the path string.  Stated both as an equality between the
code's scoring function and the spec formula, and as a property of the
scores stored in every successful search result. -/
theorem claim1_score_formula :
    (∀ (n q p : Str), calculateRelevanceScore n (jsLower q) p = specScore n q p) ∧
    (∀ (flat : List (Str × IndexEntry)) (q : Str) (opts : SearchOptions)
        (res : List SearchResult), searchSnippets flat q opts = Except.ok res →
      ∀ r ∈ res, ∃ n, r.name = some n ∧ r.score = specScore n q r.fullPath) := by
  constructor
  · intro n q p
    rfl
  · intro flat q opts res hok r hr
    simp only [searchSnippets] at hok
    rcases hloop : searchLoop flat (jsLower q) opts.searchInText opts.category
        opts.maxResults [] with e | pre
    · rw [hloop] at hok
      exact absurd hok (by simp)
    · rw [hloop] at hok
      simp only [Except.ok.injEq] at hok
      have hmem : r ∈ pre := by
        rw [← hok] at hr
        simpa [jsSortByScoreDesc] using hr
      obtain ⟨n, hn, hs⟩ := searchLoop_score_inv (jsLower q) opts.searchInText opts.category
        opts.maxResults flat [] pre (by simp) hloop r hmem
      exact ⟨n, hn, hs⟩

/-- Witness for C1, at the spec's own scenario: the first result of
`search("Hello", {})` on the `exDoc8` index carries the spec-formula
score. -/
theorem claim1_witness :
    ∃ n, exR1.name = some n ∧ exR1.score = specScore n ("Hello".toList) exR1.fullPath :=
  claim1_score_formula.2 exFlat8 "Hello".toList defaultOptions [exR1, exR2]
    searchSnippets_exFlat8 exR1 (by simp)

/-- C8 counterexample: on the index built from the scenario document,
`search("Hello", {})` does not score the entries 99 and 48 as the claim
states: the path bonus (+25) also fires and `"A/Hello"` has two path
segments (`"B/C/Hello World"` three), so the computed scores are 123
and 72. -/
theorem claim8_counterexample :
    searchSnippets (flattenSnippets exDoc8) "Hello".toList defaultOptions =
      Except.ok [exR1, exR2] ∧
    exR1.score = 123 ∧ exR2.score = 72 ∧
    exR1.score ≠ 99 ∧ exR2.score ≠ 48 := by
  refine ⟨?_, by decide, by decide, by decide, by decide⟩
  rw [flattenSnippets_exDoc8]
  exact searchSnippets_exFlat8

/-- C8 amended: on an index containing exactly one entry named
`"Hello"` at path `A/Hello` and one named `"Hello World"` at path
`B/C/Hello World`, `search("Hello", {})` scores the exact-name match
`100 + 25 (path contains the query) - 2 (two path segments) = 123` and
the partial match `50 + 25 - 3 = 72`, and the exact-name match ranks
first in the output. -/
theorem claim8_amended :
    searchSnippets (flattenSnippets exDoc8) "Hello".toList defaultOptions =
      Except.ok [exR1, exR2] ∧
    exR1.fullPath = "A/Hello".toList ∧ exR1.score = 100 + 25 - 2 ∧
    exR2.fullPath = "B/C/Hello World".toList ∧ exR2.score = 50 + 25 - 3 := by
  refine ⟨?_, by decide, by decide, by decide, by decide⟩
  rw [flattenSnippets_exDoc8]
  exact searchSnippets_exFlat8

/-- C2 counterexample: with `maxResults = 0` the claim predicts the
sorted first-0-matches, i.e. the empty list, but the break fires only
after the first iteration has already pushed a match, so `search`
returns one result. -/
theorem claim2_counterexample :
    searchSnippets exFlatA [] ⟨false, none, 0⟩ = Except.ok [exRA0] ∧
    jsSortByScoreDesc ((searchCandidates exFlatA [] ⟨false, none, 0⟩).take
      ((0 : Int).toNat)) = [] ∧
    ([exRA0] : List SearchResult) ≠ [] := by
  refine ⟨?_, ?_, by simp⟩
  · simp only [searchSnippets]
    have hloop : searchLoop exFlatA (jsLower []) false none 0 [] = Except.ok [exRA0] := by
      decide
    rw [hloop]
    have hsorted : jsSortByScoreDesc [exRA0] = [exRA0] :=
      List.mergeSort_of_sorted (by decide)
    simp only [hsorted]
  · simp [jsSortByScoreDesc]

/-- C2 amended: for every index whose entries have a `name` (and, when
`searchInText` is set, a `text`), and every query and options with
`maxResults ≥ 1`, the output is the stable score-descending ordering of
the first `maxResults` matches encountered in iteration order — not the
global top-K by score over all matches.  (With `maxResults ≤ 0` the
break instead fires after the first iteration, which is what the
counterexample exhibits.) -/
theorem claim2_amended (flat : List (Str × IndexEntry)) (q : Str) (opts : SearchOptions)
    (hn : ∀ e ∈ flat, (e.2 : IndexEntry).name.isSome = true)
    (ht : opts.searchInText = true → ∀ e ∈ flat, (e.2 : IndexEntry).text.isSome = true)
    (hpos : 1 ≤ opts.maxResults) :
    searchSnippets flat q opts =
      Except.ok (jsSortByScoreDesc
        ((searchCandidates flat q opts).take opts.maxResults.toNat)) :=
  searchSnippets_eq_ok flat q opts hn ht hpos

/-- Witness for C2 amended, at the scenario index with the default
options. -/
theorem claim2_witness :
    searchSnippets exFlat8 "Hello".toList defaultOptions =
      Except.ok (jsSortByScoreDesc
        ((searchCandidates exFlat8 "Hello".toList defaultOptions).take
          (defaultOptions.maxResults.toNat))) :=
  claim2_amended exFlat8 "Hello".toList defaultOptions (by decide) (by decide) (by decide)

/-- C3: whenever `search` returns a list, that list is the stable
descending-by-score sort of the candidates collected by the scan: it is
ordered by descending score; for every score value, the results with
that score appear exactly in the pre-sort (iteration) order; and the
candidate order itself is a sublist of FlatIndex iteration order. -/
theorem claim3_sorted_stable (flat : List (Str × IndexEntry)) (q : Str)
    (opts : SearchOptions) (pre : List SearchResult)
    (hloop : searchLoop flat (jsLower q) opts.searchInText opts.category
      opts.maxResults [] = Except.ok pre) :
    searchSnippets flat q opts = Except.ok (jsSortByScoreDesc pre) ∧
    (jsSortByScoreDesc pre).Pairwise (fun a b => b.score ≤ a.score) ∧
    (∀ s : Int, (jsSortByScoreDesc pre).filter (fun r => decide (r.score = s)) =
      pre.filter (fun r => decide (r.score = s))) ∧
    (pre.map SearchResult.fullPath).Sublist (flat.map Prod.fst) := by
  refine ⟨?_, jsSortByScoreDesc_pairwise pre,
    fun s => jsSortByScoreDesc_filter_score pre s, ?_⟩
  · simp only [searchSnippets, hloop]
  · have h := searchLoop_fullPath_sublist (jsLower q) opts.searchInText opts.category
      opts.maxResults flat [] pre hloop
    simpa using h

/-- Witness for C3, at the scenario index. -/
theorem claim3_witness :
    searchSnippets exFlat8 "Hello".toList defaultOptions =
      Except.ok (jsSortByScoreDesc [exR1, exR2]) ∧
    (jsSortByScoreDesc [exR1, exR2]).Pairwise (fun a b => b.score ≤ a.score) ∧
    (∀ s : Int, (jsSortByScoreDesc [exR1, exR2]).filter (fun r => decide (r.score = s)) =
      ([exR1, exR2] : List SearchResult).filter (fun r => decide (r.score = s))) ∧
    (([exR1, exR2] : List SearchResult).map SearchResult.fullPath).Sublist
      (exFlat8.map Prod.fst) :=
  claim3_sorted_stable exFlat8 "Hello".toList defaultOptions [exR1, exR2] searchLoop_exFlat8

/-- C4 counterexample: construction does not fail on malformed nodes.
On a document with a node missing its `type`, a folder without
`children`, a snippet without `text` and one good snippet, the build
returns a partial index: the first two nodes are silently dropped, the
text-less snippet is indexed with an `undefined` text, and no error is
raised. -/
theorem claim4_counterexample :
    flattenSnippets exDocBad =
      [("NoText".toList, ⟨some "N".toList, none, ["NoText".toList], "Root".toList, none⟩),
       ("Good".toList, ⟨some "G".toList, some "g".toList, ["Good".toList], "Root".toList, none⟩)] ∧
    getSnippet (flattenSnippets exDocBad) "NoType".toList = none ∧
    getSnippet (flattenSnippets exDocBad) "Empty".toList = none ∧
    (flattenSnippets exDocBad).length = 2 := by
  have h : flattenSnippets exDocBad =
      [("NoText".toList, ⟨some "N".toList, none, ["NoText".toList], "Root".toList, none⟩),
       ("Good".toList, ⟨some "G".toList, some "g".toList, ["Good".toList], "Root".toList, none⟩)] := by
    simp [flattenSnippets, exDocBad, flattenList, objInsert, jsJoinSlash, jsOrElse, jsOrNull]
  refine ⟨h, ?_, ?_, ?_⟩ <;> rw [h]
  · decide
  · decide
  · decide

/-- C4 amended: flattening never fails; a node whose `type`
discriminator is missing or unrecognized, and a folder node without a
`children` mapping, are silently skipped and contribute no entries,
while a snippet node without `text` is still indexed (with an
`undefined` text field), producing a partial index. -/
theorem claim4_amended :
    ∀ (k : Str) (entries : List (Str × RawNode)) (path : List Str)
      (result : List (Str × IndexEntry)),
      flattenList ((k, RawNode.malformed) :: entries) path result =
        flattenList entries path result ∧
      flattenList ((k, RawNode.folder none) :: entries) path result =
        flattenList entries path result ∧
      (∀ nm : Option Str,
        flattenList ((k, RawNode.snippet nm none) :: entries) path result =
          flattenList entries path (objInsert (jsJoinSlash (path ++ [k]))
            ⟨nm, none, path ++ [k], jsOrElse (path.get? 0) ("Root".toList),
              jsOrNull (path.get? 1)⟩ result)) := by
  intro k entries path result
  exact ⟨by simp [flattenList], by simp [flattenList], fun nm => by simp [flattenList]⟩

/-- C5: for every valid document (well-formed nodes, unique sibling
keys, no slash in keys), the flat index has exactly the slash-joined
snippet paths as its keys — one entry per reachable snippet node, in
particular as many entries as snippet nodes; folders contribute no
entries (`snipPaths` assigns paths to snippet nodes only). -/
theorem claim5_flatten_count (doc : List (Str × RawNode))
    (hvalid : entriesValid doc = true) :
    keysOf (flattenSnippets doc) = (snipPaths doc []).map jsJoinSlash ∧
    (flattenSnippets doc).length = countSnippets doc :=
  ⟨keys_flattenSnippets doc hvalid, length_flattenSnippets doc hvalid⟩

theorem claim5_witness :
    keysOf (flattenSnippets exDoc8) = (snipPaths exDoc8 []).map jsJoinSlash ∧
    (flattenSnippets exDoc8).length = countSnippets exDoc8 :=
  claim5_flatten_count exDoc8 (by simp +decide [entriesValid, exDoc8])

/-- C6: every entry of the flat index (of any document) is stored under
the slash-joined string of its `path` field, and exact lookup by that
string returns the entry itself (round-trip between indexing and
`getSnippet`). -/
theorem claim6_roundtrip (doc : List (Str × RawNode)) (k : Str) (v : IndexEntry)
    (hmem : (k, v) ∈ flattenSnippets doc) :
    k = jsJoinSlash v.path ∧
    getSnippet (flattenSnippets doc) (jsJoinSlash v.path) = some v := by
  have hkey : k = jsJoinSlash v.path :=
    key_eq_join_path_flattenList doc [] [] (by simp) (k, v) hmem
  refine ⟨hkey, ?_⟩
  have hnd : (keysOf (flattenSnippets doc)).Nodup :=
    nodup_keys_flattenList doc [] [] (by simp [keysOf])
  have hfind := getSnippet_of_mem_of_nodup hnd hmem
  rw [← hkey]
  exact hfind

/-- Witness for C6, at the scenario index's first entry. -/
theorem claim6_witness :
    ("A/Hello".toList : Str) = jsJoinSlash exE1.path ∧
    getSnippet (flattenSnippets exDoc8) (jsJoinSlash exE1.path) = some exE1 :=
  claim6_roundtrip exDoc8 "A/Hello".toList exE1
    (by rw [flattenSnippets_exDoc8]; simp [exFlat8])

/-- C7: `getSnippetsInFolder(folderPath)` returns exactly the entries
whose path string starts with `folderPath + "/"`; in particular an
entry whose full path equals `folderPath` exactly is excluded, while
every entry at `folderPath + "/" + tail` is included. -/
theorem claim7_byFolder (flat : List (Str × IndexEntry)) (folderPath : Str) :
    getSnippetsInFolder flat folderPath =
      (flat.filter (fun e => jsStartsWith e.1 (folderPath ++ ['/']))).map
        (fun e => ⟨e.2.name, e.2.text, e.2.path, e.2.category, e.2.subcategory, e.1⟩) ∧
    (∀ r ∈ getSnippetsInFolder flat folderPath,
      jsStartsWith r.fullPath (folderPath ++ ['/']) = true ∧ r.fullPath ≠ folderPath) ∧
    (∀ (tail : Str) (v : IndexEntry), (folderPath ++ '/' :: tail, v) ∈ flat →
      (⟨v.name, v.text, v.path, v.category, v.subcategory, folderPath ++ '/' :: tail⟩ :
        FolderResult) ∈ getSnippetsInFolder flat folderPath) := by
  have heq : getSnippetsInFolder flat folderPath =
      (flat.filter (fun e => jsStartsWith e.1 (folderPath ++ ['/']))).map
        (fun e => ⟨e.2.name, e.2.text, e.2.path, e.2.category, e.2.subcategory, e.1⟩) :=
    folderScan_eq_filter flat (folderPath ++ ['/'])
  refine ⟨heq, ?_, ?_⟩
  · intro r hr
    rw [heq] at hr
    obtain ⟨e, he, hre⟩ := List.mem_map.mp hr
    have hstart : jsStartsWith e.1 (folderPath ++ ['/']) = true := (List.mem_filter.mp he).2
    have hfp : r.fullPath = e.1 := by rw [← hre]
    refine ⟨by rw [hfp]; exact hstart, ?_⟩
    rw [hfp]
    intro hc
    rw [hc] at hstart
    rw [not_jsStartsWith_self_slash folderPath] at hstart
    exact Bool.false_ne_true hstart
  · intro tail v hmem
    rw [heq]
    refine List.mem_map.mpr ⟨(folderPath ++ '/' :: tail, v), ?_, rfl⟩
    exact List.mem_filter.mpr ⟨hmem, jsStartsWith_append_tail folderPath tail⟩

/-- Witness for C7: on an index holding an entry at exactly `"A"` and
one at `"A/B"`, `byFolder("A")` contains the `"A/B"` entry. -/
theorem claim7_witness :
    (⟨some "B".toList, some "y".toList, ["A".toList, "B".toList], "A".toList, none,
      "A".toList ++ '/' :: "B".toList⟩ : FolderResult) ∈
      getSnippetsInFolder exFlatC7 "A".toList :=
  (claim7_byFolder exFlatC7 "A".toList).2.2 "B".toList
    ⟨some "B".toList, some "y".toList, ["A".toList, "B".toList], "A".toList, none⟩
    (by simp [exFlatC7])

/-- With a negative `maxResults` the loop breaks right after the first
iteration, so `search` still returns an ordinary (≤ 1 element) result
list. -/
theorem searchSnippets_neg_maxResults (flat : List (Str × IndexEntry)) (q : Str)
    (opts : SearchOptions)
    (hn : ∀ e ∈ flat, (e.2 : IndexEntry).name.isSome = true)
    (ht : opts.searchInText = true → ∀ e ∈ flat, (e.2 : IndexEntry).text.isSome = true)
    (hneg : opts.maxResults < 0) :
    ∃ res, searchSnippets flat q opts = Except.ok res ∧ res.length ≤ 1 := by
  cases flat with
  | nil =>
    refine ⟨[], ?_, by simp⟩
    simp [searchSnippets, searchLoop, jsSortByScoreDesc]
  | cons e rest =>
    obtain ⟨path, snippet⟩ := e
    obtain ⟨nm, hnm0⟩ := Option.isSome_iff_exists.mp (hn (path, snippet) (by simp))
    have hnm : snippet.name = some nm := hnm0
    have htc : searchTextCheck opts.searchInText snippet.text (jsLower q) =
        Except.ok (opts.searchInText && jsIncludes (jsLower (snippet.text.getD []))
          (jsLower q)) := by
      cases hs : opts.searchInText
      · simp [searchTextCheck]
      · obtain ⟨t, htx⟩ := Option.isSome_iff_exists.mp (ht hs (path, snippet) (by simp))
        have htx' : snippet.text = some t := htx
        simp [searchTextCheck, htx', hs]
    simp only [searchSnippets, searchLoop, hnm, htc]
    have hbrk : opts.maxResults ≤ (((if ((jsIncludes (jsLower nm) (jsLower q) ||
        jsIncludes (jsLower path) (jsLower q) ||
        (opts.searchInText && jsIncludes (jsLower (snippet.text.getD [])) (jsLower q))) &&
        !(categoryBlocksMatch opts.category snippet.category)) = true then
          [] ++ [pushResult path snippet (jsLower q)]
        else ([] : List SearchResult)).length : Nat) : Int) :=
      le_trans hneg.le (Int.natCast_nonneg _)
    rw [if_pos hbrk]
    refine ⟨_, rfl, ?_⟩
    have hlen := (jsSortByScoreDesc_perm
      (if ((jsIncludes (jsLower nm) (jsLower q) ||
        jsIncludes (jsLower path) (jsLower q) ||
        (opts.searchInText && jsIncludes (jsLower (snippet.text.getD [])) (jsLower q))) &&
        !(categoryBlocksMatch opts.category snippet.category)) = true then
          [] ++ [pushResult path snippet (jsLower q)]
        else ([] : List SearchResult))).length_eq
    rw [hlen]
    split <;> simp

/-- C9 counterexample: on the index of a valid one-snippet document,
`search("a", {maxResults: -1})` does not fail fast with an error — it
returns an ordinary result list. -/
theorem claim9_counterexample :
    searchSnippets (flattenSnippets exDocA) "a".toList ⟨false, none, -1⟩ =
      Except.ok [exRAa] := by
  rw [flattenSnippets_exDocA]
  simp only [searchSnippets]
  have hloop : searchLoop exFlatA (jsLower "a".toList) false none (-1) [] =
      Except.ok [exRAa] := by
    decide
  rw [hloop]
  have hsorted : jsSortByScoreDesc [exRAa] = [exRAa] :=
    List.mergeSort_of_sorted (by decide)
  simp only [hsorted]

/-- C9 amended: `search` never validates its options and never fails on
an index built from a valid document: it always returns a result list,
and with a negative `maxResults` it returns a list of at most one entry
(the break fires after the first iteration) instead of an error. -/
theorem claim9_amended (doc : List (Str × RawNode)) (q : Str) (opts : SearchOptions)
    (hvalid : entriesValid doc = true) :
    (∃ res, searchSnippets (flattenSnippets doc) q opts = Except.ok res) ∧
    (opts.maxResults < 0 →
      ∃ res, searchSnippets (flattenSnippets doc) q opts = Except.ok res ∧
        res.length ≤ 1) := by
  have hfields := flattenList_fields_present doc [] [] hvalid (by simp)
  have hn : ∀ e ∈ flattenSnippets doc, (e.2 : IndexEntry).name.isSome = true :=
    fun e he => (hfields e he).1
  have ht : opts.searchInText = true →
      ∀ e ∈ flattenSnippets doc, (e.2 : IndexEntry).text.isSome = true :=
    fun _ e he => (hfields e he).2
  constructor
  · obtain ⟨out, hloop⟩ := searchLoop_total (jsLower q) opts.searchInText opts.category
      opts.maxResults (flattenSnippets doc) [] hn ht
    refine ⟨jsSortByScoreDesc out, ?_⟩
    simp only [searchSnippets, hloop]
  · intro hneg
    exact searchSnippets_neg_maxResults (flattenSnippets doc) q opts hn ht hneg

/-- Witness for C9, at the one-snippet document with `maxResults = -1`. -/
theorem claim9_witness :
    ∃ res, searchSnippets (flattenSnippets exDocA) "a".toList ⟨false, none, -1⟩ =
      Except.ok res ∧ res.length ≤ 1 :=
  (claim9_amended exDocA "a".toList ⟨false, none, -1⟩
    (by simp +decide [entriesValid, exDocA])).2 (by decide)

/-- C10 counterexample: on an index containing an entry whose name is
the empty string, the empty query is an exact name match, so that entry
scores `100 + 25 - 1 = 124`, not `50 + 25 - 1` as the claim predicts
for every entry. -/
theorem claim10_counterexample :
    searchSnippets (flattenSnippets exDocE) [] defaultOptions = Except.ok [exRE] ∧
    exRE.score = 124 ∧ (124 : Int) ≠ 50 + 25 - 1 := by
  refine ⟨?_, by decide, by decide⟩
  rw [flattenSnippets_exDocE]
  simp only [searchSnippets, defaultOptions]
  have hloop : searchLoop [("E".toList, exEE)] (jsLower []) false none 20 [] =
      Except.ok [exRE] := by
    decide
  rw [hloop]
  have hsorted : jsSortByScoreDesc [exRE] = [exRE] :=
    List.mergeSort_of_sorted (by decide)
  simp only [hsorted]

/-- C10 amended: on every index whose entries carry a non-empty name,
the empty query matches every entry, so `search("", {})` returns the
first `min(20, total)` entries in iteration order — `take 20` — each
scored `50 + 25` minus its number of path segments, sorted by
descending score. -/
theorem claim10_amended (flat : List (Str × IndexEntry))
    (hne : ∀ e ∈ flat, ∃ n, (e.2 : IndexEntry).name = some n ∧ n ≠ []) :
    searchSnippets flat [] defaultOptions =
      Except.ok (jsSortByScoreDesc ((flat.take 20).map (fun e =>
        ⟨e.2.name, e.2.text, e.2.path, e.2.category, e.2.subcategory, e.1,
          75 - ((jsSplitSlash e.1).length : Int)⟩))) := by
  have hn : ∀ e ∈ flat, (e.2 : IndexEntry).name.isSome = true := by
    intro e he
    obtain ⟨n, hn', _⟩ := hne e he
    simp [hn']
  have h := searchSnippets_eq_ok flat [] defaultOptions hn
    (fun hcontra => absurd hcontra (by decide)) (by decide)
  rw [h]
  suffices hc : (searchCandidates flat [] defaultOptions).take
      (defaultOptions.maxResults.toNat) = (flat.take 20).map (fun e =>
        ⟨e.2.name, e.2.text, e.2.path, e.2.category, e.2.subcategory, e.1,
          75 - ((jsSplitSlash e.1).length : Int)⟩) by
    rw [hc]
  have hfil : flat.filter (entryMatches (jsLower []) defaultOptions.searchInText
      defaultOptions.category) = flat := by
    refine List.filter_eq_self.mpr ?_
    intro e _
    simp [entryMatches, jsIncludes_nil, categoryBlocksMatch, defaultOptions, jsLower]
  simp only [searchCandidates, hfil]
  have h20 : defaultOptions.maxResults.toNat = 20 := rfl
  rw [h20, ← List.map_take]
  refine List.map_congr_left ?_
  intro e he
  obtain ⟨n, hn', hne'⟩ := hne e (List.take_subset _ _ he)
  have hscore : calculateRelevanceScore ((e.2 : IndexEntry).name.getD []) (jsLower []) e.1 =
      75 - ((jsSplitSlash e.1).length : Int) := by
    rw [hn']
    simp only [Option.getD_some, calculateRelevanceScore, jsLower, List.map_nil]
    rw [if_neg (by simpa [jsLower] using (fun hcontra => hne' (by
      simpa [jsLower_eq_nil_iff] using hcontra)))]
    rw [if_pos (jsIncludes_nil _), if_pos (jsIncludes_nil _)]
    omega
  simp only [pushResult, hscore]

/-- Witness for C10 amended, at the scenario index. -/
theorem claim10_witness :
    searchSnippets exFlat8 [] defaultOptions =
      Except.ok (jsSortByScoreDesc ((exFlat8.take 20).map (fun e =>
        ⟨e.2.name, e.2.text, e.2.path, e.2.category, e.2.subcategory, e.1,
          75 - ((jsSplitSlash e.1).length : Int)⟩))) :=
  claim10_amended exFlat8 (by
    intro e he
    simp only [exFlat8, List.mem_cons, List.not_mem_nil, or_false] at he
    rcases he with he | he
    · subst he
      exact ⟨"Hello".toList, rfl, by decide⟩
    · subst he
      exact ⟨"Hello World".toList, rfl, by decide⟩)
